import Mathlib

/-!
Verification development for the `rfc.parse` parser-combinator engine
(`src/rfc/parse/rules.py`, `src/rfc/parse/wrappers.py`).

Strings are embedded as `List Char`.  Python's `str.casefold` is modelled by
`Char.toLower` (accurate for the ASCII inputs the claims are about).

The `Context` class is imported by the source from `rfc.parse.containers`,
but `containers.py` as shipped only defines `CaptureDict` and `Match`; the
`Context` implementation itself is missing from the sources.  Its operations
(`update`, `copy`, `clean`, attribute reads/writes, `del`, `in`) are therefore
modelled from the spec: an ordered, insertion-order-preserving, string-keyed
mapping with insert-or-update semantics, whose reserved (underscore-prefixed)
keys are stripped by `clean`.

The parse functions are a shallow embedding of the `parse` methods of the
rule classes.  Python mutates `Context` objects in place; the embedding is
functional: every `parse` takes the context value the Python object held on
entry and the result carries the value it holds on exit.  A raised
`NoMatchError` is the `noMatch` result (carrying the exception's `unparsed`
payload and the state of the caller-visible context object); a raised
`RuntimeError`/`AssertionError`/`NameError` is a `fatal` result, which no
combinator catches (the code only ever catches `NoMatchError`).  Recursion is
bounded by explicit fuel; `outOfFuel` marks exhaustion and is never produced
by the modelled program itself.
-/

namespace RfcParse

/-- Model of `str.casefold` restricted to single characters (ASCII-accurate). -/
def lower (c : Char) : Char := c.toLower

/-- Values stored in a parse context: strings, lists of iteration contexts
(`Repeat`'s `_capturable`), or a nested context (`Context(parent=...)`,
`Mapping`'s table). -/
inductive Value where
  | str (s : List Char)
  | list (items : List (List (String × Value)))
  | ctx (entries : List (String × Value))

/-- Modelled from the spec: a `Context` is an ordered string-keyed mapping
(the `Context` class is absent from `src/rfc/parse/containers.py`). -/
abbrev CtxEntries := List (String × Value)

/-- First-occurrence association lookup (ordered-mapping read). -/
def assocLookup (c : CtxEntries) (k : String) : Option Value :=
  match c with
  | [] => none
  | (k', v) :: rest => if k' = k then some v else assocLookup rest k

/-- Modelled from the spec: membership test (`key in context`). -/
def containsKey (c : CtxEntries) (k : String) : Bool :=
  match c with
  | [] => false
  | (k', _) :: rest => k' = k || containsKey rest k

/-- Modelled from the spec: insert-or-update of a single key.  A present key
keeps its position and gets the new value; an absent key is appended. -/
def insertOrUpdate (c : CtxEntries) (k : String) (v : Value) : CtxEntries :=
  if containsKey c k then
    c.map (fun kv => if kv.1 = k then (k, v) else kv)
  else
    c ++ [(k, v)]

/-- Modelled from the spec: `context.update(other)` — insert-or-update each
entry of `other`, in `other`'s order. -/
def ctxUpdate (c : CtxEntries) (upd : CtxEntries) : CtxEntries :=
  upd.foldl (fun acc kv => insertOrUpdate acc kv.1 kv.2) c

/-- Modelled from the spec: `del context[k]`. -/
def eraseKey (c : CtxEntries) (k : String) : CtxEntries :=
  c.filter (fun kv => kv.1 ≠ k)

/-- A key is reserved when its name starts with an underscore. -/
def reservedKey (k : String) : Bool :=
  match k.toList with
  | '_' :: _ => true
  | _ => false

/-- Modelled from the spec: `context.clean()` strips all reserved keys. -/
def clean (c : CtxEntries) : CtxEntries :=
  c.filter (fun kv => ¬ reservedKey kv.1)

/-- Read a string value out of an optional context value. -/
def getStrVal : Option Value → List Char
  | some (.str s) => s
  | _ => []

/-- `context._match` (the reserved matched-text key). -/
def getMatch (c : CtxEntries) : List Char := getStrVal (assocLookup c "_match")

/-- `context._unparsed` (the reserved remaining-input key). -/
def getUnparsed (c : CtxEntries) : List Char := getStrVal (assocLookup c "_unparsed")

/-- Ordered-mapping key uniqueness (holds for every context the engine
builds from the empty context). -/
def NoDupKeys (c : CtxEntries) : Prop := (c.map Prod.fst).Nodup

/-- Fatal (non-`NoMatchError`) errors the engine can raise. -/
inductive FatalErr where
  /-- `RuntimeError('Zero-length match in Repeat rule: ...')` -/
  | zeroRepeat
  /-- `RuntimeError('Zero-length match in non-final Alternatives rule at ...')` -/
  | zeroAlt
  /-- `AssertionError` from `assert not any(key.startswith('_') ...)` in `RegExp.parse`. -/
  | assertUnderscore
  /-- `NameError` from the undefined name `match` in `Mapping.parse`. -/
  | nameErrorMatch

/-- Outcome of one `rule.parse(s, context)` call.  `noMatch` carries the
exception's `unparsed` payload and the state of the context object the
caller passed; `fatal` is an uncaught non-`NoMatchError` exception. -/
inductive PResult where
  | ok (c : CtxEntries)
  | noMatch (unparsed : List Char) (c : CtxEntries)
  | fatal (e : FatalErr)
  | outOfFuel

/-- Whether a parse outcome is a success. -/
def PResult.isOk : PResult → Bool
  | .ok _ => true
  | _ => false

/-- The context of a successful outcome (empty context otherwise). -/
def PResult.okCtx : PResult → CtxEntries
  | .ok c => c
  | _ => []

/-- Outcome of the `while True` iteration loop in `Repeat.parse`. -/
inductive LoopRes where
  | ldone (iters : List CtxEntries) (remainder : List Char)
  | lfatal (e : FatalErr)
  | lfuel

/-- Outcome of the child loop in `Sequence.parse` (successful thread plus the
list of per-child matched texts, or a propagated exception). -/
inductive SeqRes where
  | sok (c : CtxEntries) (ms : List (List Char))
  | sfail (r : PResult)

/-- The rule AST.  Constructors mirror the source classes.  The regular
expression engine (`re`) is external to the repository, so a `RegExp` rule
carries an abstract anchored matcher: `matcher s` returns the overall match
`m.group(0)` together with `m.groupdict()` when the pattern matches at
position 0 of `s`, and `none` otherwise. -/
inductive Rule where
  | Literal (literals : List (List Char)) (casefold : Bool)
  | RegExp (matcher : List Char → Option (List Char × List (String × List Char)))
  | Chars (chars : Option (List Char)) (exclude : Option (List Char))
      (min : Nat) (max : Option Nat)
  | Sequence (rules : List Rule)
  | Alternatives (rules : List Rule)
  | Optional (rule : Rule) (default : List Char)
  | Repeat (rule : Rule) (delimiter : Option Rule) (min : Nat) (max : Option Nat)
  | Mapping (rule : Rule) (delimiter : Option Rule) (min : Nat) (max : Option Nat)
      (keyName valueName : String)
  | Capture (rule : Rule) (name : String) (transform : Option (Value → Value)) (raw : Bool)
  | Transform (rule : Rule) (fn : List Char → List Char)
  | FullMatch (rule : Rule)

/-- `Literal.__init__`: literals are casefolded up front unless
`casefold=False`; `casefold` defaults to `True`. -/
def mkLiteral (literals : List (List Char)) (casefold : Option Bool) : Rule :=
  let cf := casefold.getD true
  .Literal (if cf then literals.map (fun l => l.map lower) else literals) cf

/-- `Chars.__init__` with only a character set: `min` and `max` default to 1. -/
def mkChars (cs : List Char) : Rule := .Chars (some cs) none 1 (some 1)

/-- `Chars._predicate`, selected in `Chars.__init__` from which of
`chars`/`exclude` are present.  The both-`None` case never consults the
predicate (`Chars.parse` short-circuits to "match anything"). -/
def charsPred (chars exclude : Option (List Char)) (c : Char) : Bool :=
  match chars, exclude with
  | some cs, none => cs.contains c
  | none, some ex => !(ex.contains c)
  | some cs, some ex => cs.contains c && !(ex.contains c)
  | none, none => true

/-- Length of the greedy run of predicate-satisfying characters computed by
the `enumerate` loop in `Chars.parse` (equal to `takeWhile`'s length for
every input, including the empty string and the full-run case). -/
def charsRunLen (chars exclude : Option (List Char)) (s : List Char) : Nat :=
  match chars, exclude with
  | none, none => s.length
  | _, _ => (s.takeWhile (charsPred chars exclude)).length

/-- `self.delimiter + self.rule` in `Repeat.parse`: `Sequence.__add__` joins
when the left side is already a `Sequence`, otherwise `Rule.__add__` builds a
two-element `Sequence`. -/
def mkDelimSeq (d r : Rule) : Rule :=
  match d with
  | .Sequence ds =>
      match r with
      | .Sequence rs => .Sequence (ds ++ rs)
      | _ => .Sequence (ds ++ [r])
  | _ => .Sequence [d, r]

/-- The effective per-iteration rule of `Repeat.parse`: the bare rule when no
delimiter is configured, else `delimiter + rule`. -/
def mkDelimRule (d : Option Rule) (r : Rule) : Rule :=
  match d with
  | none => r
  | some dr => mkDelimSeq dr r

/-- `len(matches) >= self.max` when a maximum is configured. -/
def maxReached (count : Nat) (mx : Option Nat) : Bool :=
  match mx with
  | some m => m ≤ count
  | none => false

/-- A parser closure: the recursive `parse` call available to a combinator's
children (at one fuel step less than the enclosing node). -/
abbrev Parser := Rule → List Char → CtxEntries → PResult

/-- The child loop of `Sequence.parse`.  Each child parses the current
`context._unparsed` against the threaded context; a returned context is
merged back with `context.update(...)` (a no-op when the child mutated in
place), `_capturable` is deleted, and `context._match` is appended to the
accumulated matched texts. -/
def seqGo (p : Parser) : List Rule → CtxEntries → List (List Char) → SeqRes
  | [], ctx, ms => .sok ctx ms
  | r :: rest, ctx, ms =>
      match p r (getUnparsed ctx) ctx with
      | .ok c =>
          let merged := eraseKey (ctxUpdate ctx c) "_capturable"
          seqGo p rest merged (ms ++ [getMatch merged])
      | .noMatch u c => .sfail (.noMatch u c)
      | .fatal e => .sfail (.fatal e)
      | .outOfFuel => .sfail .outOfFuel

/-- The branch loop of `Alternatives.parse`.  Every branch is tried against
an independent copy of the incoming context (functionally: against the same
context value); a zero-length success in a non-final branch raises the
fatal `RuntimeError`; `NoMatchError` moves to the next branch. -/
def altGo (p : Parser) : List Rule → List Char → CtxEntries → PResult
  | [], s, ctx => .noMatch s ctx
  | r :: rest, s, ctx =>
      match p r s ctx with
      | .ok c =>
          if s == getUnparsed c && !rest.isEmpty then .fatal .zeroAlt else .ok c
      | .noMatch _ _ => altGo p rest s ctx
      | .fatal e => .fatal e
      | .outOfFuel => .outOfFuel

/-- The `while True` loop of `Repeat.parse`.  Each iteration runs against a
fresh context holding the parent context under the key `parent`; the first
iteration uses the bare rule, later ones the delimited rule; a successful
iteration that leaves the remainder unchanged raises the fatal
`RuntimeError`; `parent` is deleted before the iteration context is kept. -/
def repGo (p : Parser) (r drule : Rule) (mx : Option Nat) (parent : CtxEntries) :
    Nat → List Char → List CtxEntries → LoopRes
  | 0, _, _ => .lfuel
  | Nat.succ n, rem, acc =>
      if maxReached acc.length mx then
        .ldone acc rem
      else
        match p (if acc.isEmpty then r else drule) rem [("parent", Value.ctx parent)] with
        | .noMatch _ _ => .ldone acc rem
        | .fatal e => .lfatal e
        | .outOfFuel => .lfuel
        | .ok c =>
            if rem == getUnparsed c then .lfatal .zeroRepeat
            else
              let c' := eraseKey c "parent"
              let acc' := acc ++ [c']
              let rem' := getUnparsed c'
              if rem' == [] then .ldone acc' rem'
              else repGo p r drule mx parent n rem' acc'

/-- Shallow embedding of `rule.parse(s, context)`, by cases on the rule class.
Recursion depth and `Repeat` iterations are bounded by `fuel`; children of a
node at fuel `n + 1` parse at fuel `n`. -/
def parse : Nat → Rule → List Char → CtxEntries → PResult
  | 0 => fun _ _ _ => .outOfFuel
  | Nat.succ n => fun rule s ctx =>
    match rule with
    | .Literal lits cf =>
        -- Literal.parse: compare against the casefolded input, consume from
        -- the original input; first literal in declared order wins.
        let cs := if cf then s.map lower else s
        match lits.find? (fun lit => cs.take lit.length == lit) with
        | some lit =>
            .ok (ctxUpdate ctx
              [("_match", .str (cs.take lit.length)),
               ("_unparsed", .str (s.drop lit.length))])
        | none => .noMatch s ctx
    | .RegExp matcher =>
        -- RegExp.parse: anchored match; the underscore assertion runs before
        -- the context update, only on a successful match.
        match matcher s with
        | none => .noMatch s ctx
        | some (m, gd) =>
            if gd.any (fun kv => reservedKey kv.1) then .fatal .assertUnderscore
            else
              .ok (ctxUpdate ctx
                (("_match", Value.str m) :: ("_unparsed", Value.str (s.drop m.length)) ::
                  gd.map (fun kv => (kv.1, Value.str kv.2))))
    | .Chars chars exclude mn mx =>
        -- Chars.parse: greedy run, clamped to max, failing below min.
        let runLen := charsRunLen chars exclude s
        let matchLen := match mx with | none => runLen | some m => min runLen m
        if matchLen < mn then .noMatch s ctx
        else
          .ok (ctxUpdate ctx
            [("_match", .str (s.take matchLen)),
             ("_unparsed", .str (s.drop matchLen))])
    | .Sequence rs =>
        -- Sequence.parse: context._unparsed = s, then thread the children.
        -- The final `_match` is the join of the per-child matched texts.
        match seqGo (parse n) rs (insertOrUpdate ctx "_unparsed" (.str s)) [] with
        | .sok c ms => .ok (insertOrUpdate c "_match" (.str ms.flatten))
        | .sfail r => r
    | .Alternatives rs => altGo (parse n) rs s ctx
    | .Optional r _dflt =>
        -- Optional.parse: try the rule on a copy; on NoMatchError fall back
        -- to a zero-length match on the original context.  The configured
        -- default is stored by __init__ but never read here: the fallback
        -- match text is the literal empty string.
        match parse n r s ctx with
        | .ok c => .ok c
        | .noMatch _ _ => .ok (ctxUpdate ctx [("_match", .str []), ("_unparsed", .str s)])
        | .fatal e => .fatal e
        | .outOfFuel => .outOfFuel
    | .Repeat r d mn mx =>
        match repGo (parse n) r (mkDelimRule d r) mx ctx n s [] with
        | .ldone ms rem =>
            if ms.length < mn then .noMatch s ctx
            else
              .ok (ctxUpdate ctx
                [("_match", .str (ms.map getMatch).flatten),
                 ("_capturable", .list (ms.map clean)),
                 ("_unparsed", .str rem)])
        | .lfatal e => .fatal e
        | .lfuel => .outOfFuel
    | .Mapping r d mn mx _kn _vn =>
        -- Mapping.parse: run Repeat.parse, then, when `_capturable` is a
        -- list, evaluate the table-building generator expression — whose
        -- iterable is the undefined name `match`, raising NameError.
        match repGo (parse n) r (mkDelimRule d r) mx ctx n s [] with
        | .ldone ms rem =>
            if ms.length < mn then .noMatch s ctx
            else
              let c := ctxUpdate ctx
                [("_match", .str (ms.map getMatch).flatten),
                 ("_capturable", .list (ms.map clean)),
                 ("_unparsed", .str rem)]
              match assocLookup c "_capturable" with
              | some (.list _) => .fatal .nameErrorMatch
              | _ => .ok c
        | .lfatal e => .fatal e
        | .lfuel => .outOfFuel
    | .Capture r name tf raw =>
        match parse n r s ctx with
        | .ok c =>
            let value :=
              if raw || !(containsKey c "_capturable") then Value.str (getMatch c)
              else (assocLookup c "_capturable").getD (.str [])
            let value := match tf with | some f => f value | none => value
            .ok (insertOrUpdate c name value)
        | .noMatch u c => .noMatch u c
        | .fatal e => .fatal e
        | .outOfFuel => .outOfFuel
    | .Transform r fn =>
        match parse n r s ctx with
        | .ok c => .ok (insertOrUpdate c "_match" (.str (fn (getMatch c))))
        | .noMatch u c => .noMatch u c
        | .fatal e => .fatal e
        | .outOfFuel => .outOfFuel
    | .FullMatch r =>
        match parse n r s ctx with
        | .ok c => if getUnparsed c = [] then .ok c else .noMatch (getUnparsed c) c
        | .noMatch u c => .noMatch u c
        | .fatal e => .fatal e
        | .outOfFuel => .outOfFuel

/-- `RegExp.__init__`: compiles the pattern (abstracted into the matcher) and
performs no validation of group names — construction always succeeds. -/
def regExpInit (matcher : List Char → Option (List Char × List (String × List Char))) :
    Except String Rule :=
  .ok (.RegExp matcher)

/-- Repetition item selectors handled by `Chars.__getitem__`: an integer
index, or a slice whose start is absent or an integer (not a string, which
would select the `Capture` path of `Rule.__getitem__`) and whose step, when
present, is a delimiter rule. -/
inductive ItemSel where
  | intI (n : Nat)
  | sliceI (start : Option Nat) (stop : Option Nat) (step : Option Rule)

/-- `Chars.__getitem__`: integer and step-free slice selectors return a new
`Chars` with the same character sets and adjusted bounds; a slice with a
step falls through to `Rule.__getitem__`, which builds `Optional` for
`(0, 1)` bounds and otherwise a `Repeat`. -/
def charsGetitem (chars exclude : Option (List Char)) (mn : Nat) (mx : Option Nat)
    (item : ItemSel) : Rule :=
  match item with
  | .intI n => .Chars chars exclude n (some n)
  | .sliceI st stop none => .Chars chars exclude (st.getD 0) stop
  | .sliceI st stop (some d) =>
      if st.getD 0 = 0 ∧ stop = some 1 then .Optional (.Chars chars exclude mn mx) []
      else .Repeat (.Chars chars exclude mn mx) (some d) (st.getD 0) stop

/-- Outcome of the top-level `rule(s, partial=...)` invocation. -/
inductive CallRes where
  | ok (c : CtxEntries)
  | errNoMatch (unparsed : List Char)
  | fatal (e : FatalErr)
  | fuelOut

/-- `Rule.__call__`: allocates a fresh context, wraps the rule in `FullMatch`
unconditionally, and returns the cleaned context.  The `pFlag` parameter
models `partial`; it is accepted and never read by the code. -/
def ruleCall (fuel : Nat) (r : Rule) (s : List Char) (pFlag : Bool) : CallRes :=
  match parse fuel (.FullMatch r) s [] with
  | .ok c => .ok (clean c)
  | .noMatch u _ => .errNoMatch u
  | .fatal e => .fatal e
  | .outOfFuel => .fuelOut

/-! ### Unfolding equations for the structural combinators -/

theorem parse_sequence_eq (n : Nat) (rs : List Rule) (s : List Char) (ctx : CtxEntries) :
    parse (n + 1) (.Sequence rs) s ctx =
      match seqGo (parse n) rs (insertOrUpdate ctx "_unparsed" (.str s)) [] with
      | .sok c ms => .ok (insertOrUpdate c "_match" (.str ms.flatten))
      | .sfail r => r := rfl

theorem parse_alternatives_eq (n : Nat) (rs : List Rule) (s : List Char) (ctx : CtxEntries) :
    parse (n + 1) (.Alternatives rs) s ctx = altGo (parse n) rs s ctx := rfl

theorem parse_optional_eq (n : Nat) (r : Rule) (dflt : List Char) (s : List Char)
    (ctx : CtxEntries) :
    parse (n + 1) (.Optional r dflt) s ctx =
      match parse n r s ctx with
      | .ok c => .ok c
      | .noMatch _ _ => .ok (ctxUpdate ctx [("_match", .str []), ("_unparsed", .str s)])
      | .fatal e => .fatal e
      | .outOfFuel => .outOfFuel := rfl

theorem parse_repeat_eq (n : Nat) (r : Rule) (d : Option Rule) (mn : Nat) (mx : Option Nat)
    (s : List Char) (ctx : CtxEntries) :
    parse (n + 1) (.Repeat r d mn mx) s ctx =
      match repGo (parse n) r (mkDelimRule d r) mx ctx n s [] with
      | .ldone ms rem =>
          if ms.length < mn then .noMatch s ctx
          else
            .ok (ctxUpdate ctx
              [("_match", .str (ms.map getMatch).flatten),
               ("_capturable", .list (ms.map clean)),
               ("_unparsed", .str rem)])
      | .lfatal e => .fatal e
      | .lfuel => .outOfFuel := rfl

/-! ### Ordered-mapping lemmas -/

theorem containsKey_iff_mem (c : CtxEntries) (k : String) :
    containsKey c k = true ↔ k ∈ c.map Prod.fst := by
  induction c with
  | nil => simp [containsKey]
  | cons kv rest ih =>
      simp [containsKey, ih, Bool.or_eq_true, decide_eq_true_eq]
      constructor
      · rintro (h | h)
        · exact Or.inl h.symm
        · exact Or.inr h
      · rintro (h | h)
        · exact Or.inl h.symm
        · exact Or.inr h

theorem assocLookup_none_of_not_contains {c : CtxEntries} {k : String}
    (h : containsKey c k = false) : assocLookup c k = none := by
  induction c with
  | nil => simp [assocLookup]
  | cons kv rest ih =>
      simp [containsKey, Bool.or_eq_false_iff] at h
      simp [assocLookup, h.1, ih h.2]

theorem assocLookup_append (c₁ c₂ : CtxEntries) (k : String) :
    assocLookup (c₁ ++ c₂) k =
      match assocLookup c₁ k with
      | some v => some v
      | none => assocLookup c₂ k := by
  induction c₁ with
  | nil => simp [assocLookup]
  | cons kv rest ih =>
      by_cases h : kv.1 = k
      · simp [assocLookup, h]
      · simp [assocLookup, h, ih]

theorem assocLookup_map_replace_other (c : CtxEntries) (k : String) (v : Value)
    {k' : String} (h : k' ≠ k) :
    assocLookup (c.map fun kv => if kv.1 = k then (k, v) else kv) k'
      = assocLookup c k' := by
  induction c with
  | nil => simp [assocLookup]
  | cons kv rest ih =>
      simp only [List.map_cons]
      by_cases hk : kv.1 = k
      · rw [if_pos hk]
        show (if k = k' then some v else _) = _
        rw [if_neg (Ne.symm h)]
        show _ = (if kv.1 = k' then some kv.2 else _)
        rw [if_neg (fun hc => h (hk.symm.trans hc).symm), ih]
      · rw [if_neg hk]
        show (if kv.1 = k' then some kv.2 else _) = (if kv.1 = k' then some kv.2 else _)
        by_cases hkv : kv.1 = k'
        · rw [if_pos hkv, if_pos hkv]
        · rw [if_neg hkv, if_neg hkv, ih]

theorem assocLookup_map_replace_self (c : CtxEntries) (k : String) (v : Value)
    (h : containsKey c k = true) :
    assocLookup (c.map fun kv => if kv.1 = k then (k, v) else kv) k = some v := by
  induction c with
  | nil => simp [containsKey] at h
  | cons kv rest ih =>
      simp only [List.map_cons]
      by_cases hk : kv.1 = k
      · rw [if_pos hk]
        show (if k = k then some v else _) = some v
        rw [if_pos rfl]
      · rw [if_neg hk]
        simp [containsKey, Bool.or_eq_true, decide_eq_true_eq] at h
        rcases h with h | h
        · exact absurd h hk
        · show (if kv.1 = k then some kv.2 else _) = some v
          rw [if_neg hk, ih h]

/-- Reading back an inserted-or-updated key. -/
theorem assocLookup_iou (c : CtxEntries) (k : String) (v : Value) (k' : String) :
    assocLookup (insertOrUpdate c k v) k'
      = if k' = k then some v else assocLookup c k' := by
  unfold insertOrUpdate
  by_cases hc : containsKey c k
  · by_cases hk : k' = k
    · subst hk; simp [hc, assocLookup_map_replace_self c k' v hc]
    · simp [hc, hk, assocLookup_map_replace_other c k v hk]
  · simp only [hc, Bool.false_eq_true, if_false]
    rw [assocLookup_append]
    by_cases hk : k' = k
    · subst hk
      have hcf : containsKey c k' = false := by
        cases hcc : containsKey c k'
        · rfl
        · exact absurd hcc hc
      simp [assocLookup_none_of_not_contains hcf, assocLookup]
    · cases h : assocLookup c k' with
      | some w => simp [h, hk]
      | none =>
          have hkk : ¬ k = k' := fun hx => hk hx.symm
          simp [h, hk, assocLookup, hkk]

/-- Deleting a key removes exactly that key. -/
theorem assocLookup_erase (c : CtxEntries) (k k' : String) :
    assocLookup (eraseKey c k) k'
      = if k' = k then none else assocLookup c k' := by
  induction c with
  | nil => simp [eraseKey, assocLookup]
  | cons kv rest ih =>
      unfold eraseKey at ih ⊢
      rw [List.filter_cons]
      by_cases hk : kv.1 = k
      · have hd : (decide (kv.1 ≠ k)) = false := by simp [hk]
        rw [hd]
        simp only [Bool.false_eq_true, if_false]
        rw [ih]
        by_cases hk' : k' = k
        · rw [if_pos hk', if_pos hk']
        · rw [if_neg hk', if_neg hk']
          show _ = (if kv.1 = k' then some kv.2 else assocLookup rest k')
          rw [if_neg (fun hx : kv.1 = k' => hk' (hx.symm.trans hk))]
      · have hd : (decide (kv.1 ≠ k)) = true := by simp [hk]
        rw [hd]
        simp only [if_true]
        show (if kv.1 = k' then some kv.2 else assocLookup (rest.filter _) k') = _
        by_cases hkv : kv.1 = k'
        · rw [if_pos hkv]
          have hk' : ¬ k' = k := fun hx => hk (hkv.trans hx)
          rw [if_neg hk']
          show _ = (if kv.1 = k' then some kv.2 else _)
          rw [if_pos hkv]
        · rw [if_neg hkv, ih]
          by_cases hk' : k' = k
          · rw [if_pos hk', if_pos hk']
          · rw [if_neg hk', if_neg hk']
            show _ = (if kv.1 = k' then _ else _)
            rw [if_neg hkv]

/-- Lookup through `context.update(other)` for a key absent from `other`. -/
theorem assocLookup_ctxUpdate_not_contains {b : CtxEntries} {k : String}
    (h : containsKey b k = false) (a : CtxEntries) :
    assocLookup (ctxUpdate a b) k = assocLookup a k := by
  induction b generalizing a with
  | nil => simp [ctxUpdate]
  | cons kv rest ih =>
      simp [containsKey, Bool.or_eq_false_iff] at h
      show assocLookup (ctxUpdate (insertOrUpdate a kv.1 kv.2) rest) k = _
      rw [ih h.2, assocLookup_iou]
      have : k ≠ kv.1 := by
        intro hk
        exact absurd (decide_eq_true_eq.mpr hk.symm) (by simp [h.1])
      simp [this]

/-- Lookup through `context.update(other)` for a key present in `other`
(whose keys are unique): `other` wins. -/
theorem assocLookup_ctxUpdate_mem {b : CtxEntries} (hnd : NoDupKeys b)
    {k : String} {v : Value} (h : assocLookup b k = some v) (a : CtxEntries) :
    assocLookup (ctxUpdate a b) k = some v := by
  induction b generalizing a with
  | nil => simp [assocLookup] at h
  | cons kv rest ih =>
      have hnd' : NoDupKeys rest := (List.nodup_cons.mp hnd).2
      by_cases hk : kv.1 = k
      · have hv : v = kv.2 := by simp [assocLookup, hk] at h; exact h.symm
        have hnm : k ∉ rest.map Prod.fst := hk ▸ (List.nodup_cons.mp hnd).1
        have hcf : containsKey rest k = false := by
          rcases hcc : containsKey rest k with _ | _
          · rfl
          · exact absurd ((containsKey_iff_mem rest k).mp hcc) hnm
        show assocLookup (ctxUpdate (insertOrUpdate a kv.1 kv.2) rest) k = _
        rw [assocLookup_ctxUpdate_not_contains hcf, assocLookup_iou]
        simp [hk, hv]
      · have h' : assocLookup rest k = some v := by
          simpa [assocLookup, hk] using h
        exact ih hnd' h' _

/-- Replacing values in place leaves the key sequence unchanged. -/
theorem keys_map_replace (c : CtxEntries) (k : String) (v : Value) :
    (c.map fun kv => if kv.1 = k then (k, v) else kv).map Prod.fst
      = c.map Prod.fst := by
  rw [List.map_map]
  apply List.map_congr_left
  intro kv _
  by_cases hk : kv.1 = k <;> simp [hk]

theorem noDupKeys_iou {c : CtxEntries} (h : NoDupKeys c) (k : String) (v : Value) :
    NoDupKeys (insertOrUpdate c k v) := by
  unfold insertOrUpdate
  by_cases hc : containsKey c k
  · simp only [hc, if_true]
    unfold NoDupKeys
    rw [keys_map_replace]
    exact h
  · have hnm : k ∉ c.map Prod.fst := fun hm =>
      absurd ((containsKey_iff_mem c k).mpr hm) (by simp [hc])
    simp only [hc, Bool.false_eq_true, if_false]
    unfold NoDupKeys
    rw [List.map_append, List.nodup_append]
    refine ⟨h, List.nodup_singleton _, ?_⟩
    intro a ha hb
    simp only [List.map_cons, List.map_nil, List.mem_singleton] at hb
    exact hnm (hb ▸ ha)

theorem noDupKeys_ctxUpdate {a : CtxEntries} (h : NoDupKeys a) (b : CtxEntries) :
    NoDupKeys (ctxUpdate a b) := by
  induction b generalizing a with
  | nil => exact h
  | cons kv rest ih => exact ih (noDupKeys_iou h kv.1 kv.2)

theorem noDupKeys_erase {c : CtxEntries} (h : NoDupKeys c) (k : String) :
    NoDupKeys (eraseKey c k) := by
  unfold NoDupKeys eraseKey
  exact ((List.filter_sublist c).map Prod.fst).nodup h

/-! ### Well-behaved rules -/

theorem ctxUpdate_two (ctx : CtxEntries) (k₁ : String) (v₁ : Value)
    (k₂ : String) (v₂ : Value) :
    ctxUpdate ctx [(k₁, v₁), (k₂, v₂)] =
      insertOrUpdate (insertOrUpdate ctx k₁ v₁) k₂ v₂ := rfl

theorem ctxUpdate_three (ctx : CtxEntries) (k₁ : String) (v₁ : Value)
    (k₂ : String) (v₂ : Value) (k₃ : String) (v₃ : Value) :
    ctxUpdate ctx [(k₁, v₁), (k₂, v₂), (k₃, v₃)] =
      insertOrUpdate (insertOrUpdate (insertOrUpdate ctx k₁ v₁) k₂ v₂) k₃ v₃ := rfl

/-- A rule is well behaved when every successful parse from a duplicate-free
context yields a duplicate-free context whose `_match`/`_unparsed` keys hold
strings, with the length of the matched text plus the length of the
remainder equal to the length of the input (i.e. the rule's matched text is
exactly, character for character, what it consumed). -/
def WellBehaved (r : Rule) : Prop :=
  ∀ f s ctx c, parse f r s ctx = .ok c → NoDupKeys ctx →
    NoDupKeys c ∧
    assocLookup c "_match" = some (.str (getMatch c)) ∧
    assocLookup c "_unparsed" = some (.str (getUnparsed c)) ∧
    (getMatch c).length + (getUnparsed c).length = s.length

theorem match_ne_unparsed : ("_match" : String) ≠ "_unparsed" := by decide

/-- Facts about the context built by updating `_match` then `_unparsed`. -/
theorem matchUnparsed_update_facts (ctx : CtxEntries) (m u : List Char)
    (h : NoDupKeys ctx) :
    let c := ctxUpdate ctx [("_match", Value.str m), ("_unparsed", Value.str u)]
    NoDupKeys c ∧ getMatch c = m ∧ getUnparsed c = u ∧
      assocLookup c "_match" = some (.str m) ∧
      assocLookup c "_unparsed" = some (.str u) := by
  intro c
  have hm : assocLookup c "_match" = some (.str m) := by
    show assocLookup (insertOrUpdate (insertOrUpdate ctx "_match" (.str m))
      "_unparsed" (.str u)) "_match" = _
    rw [assocLookup_iou, if_neg match_ne_unparsed, assocLookup_iou, if_pos rfl]
  have hu : assocLookup c "_unparsed" = some (.str u) := by
    show assocLookup (insertOrUpdate (insertOrUpdate ctx "_match" (.str m))
      "_unparsed" (.str u)) "_unparsed" = _
    rw [assocLookup_iou, if_pos rfl]
  refine ⟨noDupKeys_ctxUpdate h _, ?_, ?_, hm, hu⟩
  · unfold getMatch; rw [hm]; rfl
  · unfold getUnparsed; rw [hu]; rfl

/-- `Literal` rules are well behaved: the matched text is the casefolded
image of the consumed prefix, character for character. -/
theorem literal_wellBehaved (lits : List (List Char)) (cf : Bool) :
    WellBehaved (.Literal lits cf) := by
  intro f s ctx c hp hnd
  cases f with
  | zero => exact absurd hp (by simp [parse])
  | succ n =>
      simp only [parse] at hp
      cases hf : lits.find?
          (fun lit => (if cf then s.map lower else s).take lit.length == lit) with
      | none => rw [hf] at hp; exact absurd hp (by simp)
      | some lit =>
          rw [hf] at hp
          simp only [PResult.ok.injEq] at hp
          have hpred := List.find?_some hf
          have heq : (if cf then s.map lower else s).take lit.length = lit :=
            by exact eq_of_beq hpred
          have hlen : lit.length ≤ s.length := by
            have := congrArg List.length heq
            rw [List.length_take] at this
            by_cases hcf : cf <;> simp [hcf] at this <;> omega
          have hfacts := matchUnparsed_update_facts ctx
            ((if cf then s.map lower else s).take lit.length) (s.drop lit.length) hnd
          rw [← hp] at *
          refine ⟨hfacts.1, ?_, ?_, ?_⟩
          · rw [hfacts.2.2.2.1, hfacts.2.1]
          · rw [hfacts.2.2.2.2, hfacts.2.2.1]
          · rw [hfacts.2.1, hfacts.2.2.1]
            rw [List.length_take, List.length_drop]
            by_cases hcf : cf <;> simp [hcf] <;> omega

/-- `Chars` rules are well behaved: the matched text is the consumed prefix. -/
theorem chars_wellBehaved (chars exclude : Option (List Char)) (mn : Nat)
    (mx : Option Nat) : WellBehaved (.Chars chars exclude mn mx) := by
  intro f s ctx c hp hnd
  cases f with
  | zero => exact absurd hp (by simp [parse])
  | succ n =>
      simp only [parse] at hp
      have hrun : charsRunLen chars exclude s ≤ s.length := by
        unfold charsRunLen
        cases chars <;> cases exclude <;>
          first
            | exact Nat.le_refl _
            | exact (List.takeWhile_sublist _).length_le
      set matchLen := match mx with
        | none => charsRunLen chars exclude s
        | some m => min (charsRunLen chars exclude s) m with hml
      have hmll : matchLen ≤ s.length := by
        rw [hml]
        cases mx with
        | none => exact hrun
        | some m => exact le_trans (Nat.min_le_left _ _) hrun
      by_cases hlt : matchLen < mn
      · rw [if_pos hlt] at hp; exact absurd hp (by simp)
      · rw [if_neg hlt] at hp
        simp only [PResult.ok.injEq] at hp
        have hfacts := matchUnparsed_update_facts ctx (s.take matchLen) (s.drop matchLen) hnd
        rw [← hp] at *
        refine ⟨hfacts.1, ?_, ?_, ?_⟩
        · rw [hfacts.2.2.2.1, hfacts.2.1]
        · rw [hfacts.2.2.2.2, hfacts.2.2.1]
        · rw [hfacts.2.1, hfacts.2.2.1, List.length_take, List.length_drop]
          omega

/-! ### Alternatives: ordered choice, isolation, fatal propagation -/

theorem parent_nodup (parent : CtxEntries) : NoDupKeys [("parent", Value.ctx parent)] := by
  simp [NoDupKeys]

theorem unparsed_ne_capturable : ("_unparsed" : String) ≠ "_capturable" := by decide

theorem unparsed_ne_parent : ("_unparsed" : String) ≠ "parent" := by decide

theorem getUnparsed_erase_parent (c : CtxEntries) :
    getUnparsed (eraseKey c "parent") = getUnparsed c := by
  unfold getUnparsed
  rw [assocLookup_erase, if_neg unparsed_ne_parent]

/-- Ordered choice: when every earlier branch fails with `NoMatchError` on the
incoming context and branch `r` succeeds on that same context (each branch
sees an independent copy), the `Alternatives` returns exactly the succeeding
branch's context. -/
theorem altGo_first_success (n : Nat) (pre : List Rule) (r : Rule) (rest : List Rule)
    (s : List Char) (ctx : CtxEntries) (c' : CtxEntries)
    (hpre : ∀ rp ∈ pre, ∃ u cc, parse n rp s ctx = .noMatch u cc)
    (hr : parse n r s ctx = .ok c')
    (hnz : getUnparsed c' ≠ s ∨ rest = []) :
    parse (n + 1) (.Alternatives (pre ++ r :: rest)) s ctx = .ok c' := by
  rw [parse_alternatives_eq]
  induction pre with
  | nil =>
      simp only [List.nil_append, altGo, hr]
      rcases hnz with h | h
      · rw [show (s == getUnparsed c') = false from
          beq_eq_false_iff_ne.mpr (fun hs => h hs.symm), Bool.false_and]
        simp
      · subst h
        simp [altGo, hr]
  | cons p ps ih =>
      obtain ⟨u, cc, hnm⟩ := hpre p (List.mem_cons_self p ps)
      simp only [List.cons_append, altGo, hnm]
      exact ih (fun rp hm => hpre rp (List.mem_cons_of_mem p hm))

/-- A fatal error in a branch propagates out of `Alternatives` (only
`NoMatchError` is caught). -/
theorem altGo_fatal (n : Nat) (pre : List Rule) (r : Rule) (rest : List Rule)
    (s : List Char) (ctx : CtxEntries) (e : FatalErr)
    (hpre : ∀ rp ∈ pre, ∃ u cc, parse n rp s ctx = .noMatch u cc)
    (h : parse n r s ctx = .fatal e) :
    parse (n + 1) (.Alternatives (pre ++ r :: rest)) s ctx = .fatal e := by
  rw [parse_alternatives_eq]
  induction pre with
  | nil => simp [altGo, h]
  | cons p ps ih =>
      obtain ⟨u, cc, hnm⟩ := hpre p (List.mem_cons_self p ps)
      simp only [List.cons_append, altGo, hnm]
      exact ih (fun rp hm => hpre rp (List.mem_cons_of_mem p hm))

/-- A zero-length success in a non-final branch raises the fatal
`RuntimeError` from `Alternatives.parse`. -/
theorem altGo_zero_fatal (n : Nat) (r : Rule) (rest : List Rule) (s : List Char)
    (ctx : CtxEntries) (c : CtxEntries)
    (hrest : rest ≠ [])
    (h : parse n r s ctx = .ok c)
    (hz : getUnparsed c = s) :
    parse (n + 1) (.Alternatives (r :: rest)) s ctx = .fatal .zeroAlt := by
  rw [parse_alternatives_eq]
  simp only [altGo, h, hz]
  rw [beq_self_eq_true]
  have hre : rest.isEmpty = false := by
    cases rest with
    | nil => exact absurd rfl hrest
    | cons a l => rfl
  simp [hre]

/-- A fatal error below `Optional` propagates (only `NoMatchError` is caught). -/
theorem optional_fatal (n : Nat) (r : Rule) (dflt : List Char) (s : List Char)
    (ctx : CtxEntries) (e : FatalErr) (h : parse n r s ctx = .fatal e) :
    parse (n + 1) (.Optional r dflt) s ctx = .fatal e := by
  rw [parse_optional_eq, h]

/-- A fatal error in the first `Repeat` iteration propagates (only
`NoMatchError` stops the loop). -/
theorem repeat_fatal (n : Nat) (r : Rule) (d : Option Rule) (mn : Nat) (mx : Option Nat)
    (s : List Char) (ctx : CtxEntries) (e : FatalErr)
    (hmx : maxReached 0 mx = false)
    (h : parse (n + 1) r s [("parent", Value.ctx ctx)] = .fatal e) :
    parse (n + 2) (.Repeat r d mn mx) s ctx = .fatal e := by
  rw [parse_repeat_eq, repGo]
  simp only [List.length_nil, hmx, Bool.false_eq_true, if_false, List.isEmpty_nil,
    if_true, h]

/-- A first iteration that succeeds without consuming anything raises the
fatal `RuntimeError` from `Repeat.parse`. -/
theorem repeat_zero_fatal (n : Nat) (r : Rule) (d : Option Rule) (mn : Nat)
    (mx : Option Nat) (s : List Char) (ctx : CtxEntries) (c : CtxEntries)
    (hmx : maxReached 0 mx = false)
    (h : parse (n + 1) r s [("parent", Value.ctx ctx)] = .ok c)
    (hz : getUnparsed c = s) :
    parse (n + 2) (.Repeat r d mn mx) s ctx = .fatal .zeroRepeat := by
  rw [parse_repeat_eq, repGo]
  simp only [List.length_nil, hmx, Bool.false_eq_true, if_false, List.isEmpty_nil,
    if_true, h, hz]
  simp

/-! ### Repeat: iteration bounds and min/max semantics -/

/-- The iteration loop never accumulates more than `max` iterations. -/
theorem repGo_ldone_le (p : Parser) (r drule : Rule) (M : Nat) (parent : CtxEntries) :
    ∀ f rem acc ms rem',
      repGo p r drule (some M) parent f rem acc = .ldone ms rem' →
      acc.length ≤ M → ms.length ≤ M := by
  intro f
  induction f with
  | zero => intro rem acc ms rem' h _; exact absurd h (by simp [repGo])
  | succ n ih =>
      intro rem acc ms rem' h hacc
      rw [repGo] at h
      by_cases hmax : maxReached acc.length (some M)
      · rw [if_pos hmax] at h
        cases h; exact hacc
      · rw [if_neg hmax] at h
        have hlt : acc.length < M := by
          simp [maxReached] at hmax; omega
        cases hp : p (if acc.isEmpty then r else drule) rem [("parent", Value.ctx parent)] with
        | noMatch u cc => rw [hp] at h; cases h; exact hacc
        | fatal e => rw [hp] at h; cases h
        | outOfFuel => rw [hp] at h; cases h
        | ok c =>
            simp only [hp] at h
            by_cases hz : (rem == getUnparsed c) = true
            · rw [if_pos hz] at h; cases h
            · rw [if_neg hz] at h
              by_cases he : (getUnparsed (eraseKey c "parent") == []) = true
              · rw [if_pos he] at h
                cases h
                rw [List.length_append]
                simpa using hlt
              · rw [if_neg he] at h
                exact ih _ _ _ _ h (by rw [List.length_append]; simpa using hlt)

/-- `Repeat` fails with an ordinary `NoMatchError` exactly when the loop
completed with fewer than `min` successful iterations. -/
theorem repeat_noMatch_iff (n : Nat) (r : Rule) (d : Option Rule) (mn : Nat)
    (mx : Option Nat) (s : List Char) (ctx : CtxEntries) (ms : List CtxEntries)
    (rem : List Char)
    (h : repGo (parse n) r (mkDelimRule d r) mx ctx n s [] = .ldone ms rem) :
    (parse (n + 1) (.Repeat r d mn mx) s ctx = .noMatch s ctx) ↔ ms.length < mn := by
  rw [parse_repeat_eq, h]
  by_cases hlt : ms.length < mn
  · simp [hlt]
  · simp [hlt]

/-! ### The `Repeat(Optional(Literal("z")))` zero-length guard -/

/-- Evaluation of `Optional(Literal("z"))`: it always succeeds, consuming one
casefolded `z` when the input starts with one and nothing otherwise. -/
theorem optZ_eval (k : Nat) (s : List Char) (ictx : CtxEntries) :
    parse (k + 2) (.Optional (mkLiteral ["z".toList] none) []) s ictx =
      match s with
      | [] => .ok (ctxUpdate ictx [("_match", Value.str []), ("_unparsed", Value.str s)])
      | c :: rest =>
          if lower c = 'z' then
            .ok (ctxUpdate ictx [("_match", Value.str ['z']), ("_unparsed", Value.str rest)])
          else .ok (ctxUpdate ictx [("_match", Value.str []), ("_unparsed", Value.str s)]) := by
  have hrw : mkLiteral ["z".toList] none = .Literal [['z']] true := rfl
  rw [hrw]
  cases s with
  | nil => rfl
  | cons c rest =>
      simp only [parse, ite_true, List.map_cons]
      by_cases h : lower c = 'z'
      · rw [List.find?_cons_of_pos _ (by simp [List.take, h])]
        simp [List.take, List.drop, h]
      · rw [List.find?_cons_of_neg _ (by simp [List.take, h]), List.find?_nil]
        simp [h]

/-- The `Repeat` loop over `Optional(Literal("z"))` on an input containing a
non-`z` character always ends in the zero-length fatal error: the loop
consumes leading `z`s and the first non-`z` position yields a zero-length
iteration. -/
theorem optZ_loop (pf : Nat) :
    ∀ lf (s : List Char) (acc : List CtxEntries) (parent : CtxEntries) (res : LoopRes),
      s ≠ [] → (∃ c ∈ s, lower c ≠ 'z') →
      repGo (parse pf) (.Optional (mkLiteral ["z".toList] none) [])
        (.Optional (mkLiteral ["z".toList] none) []) none parent lf s acc = res →
      res ≠ .lfuel → res = .lfatal .zeroRepeat := by
  intro lf
  induction lf with
  | zero =>
      intro s acc parent res _ _ h hf
      rw [repGo] at h
      exact absurd h.symm hf
  | succ m ih =>
      intro s acc parent res hne hex h hf
      rw [repGo] at h
      simp only [maxReached, Bool.false_eq_true, if_false, ite_self] at h
      match hpf : pf, s, hne with
      | 0, s, hne =>
          rw [show parse 0 (Rule.Optional (mkLiteral ["z".toList] none) []) s
            [("parent", Value.ctx parent)] = .outOfFuel from rfl] at h
          exact absurd h.symm hf
      | 1, s, hne =>
          rw [show parse 1 (Rule.Optional (mkLiteral ["z".toList] none) []) s
            [("parent", Value.ctx parent)] = .outOfFuel from rfl] at h
          exact absurd h.symm hf
      | (k+2), c :: rest, _ =>
          rw [optZ_eval] at h
          simp only [] at h
          by_cases hz : lower c = 'z'
          · -- the head is consumed; a non-z character remains further on
            rw [if_pos hz] at h
            obtain ⟨w, hw, hwz⟩ := hex
            have hwrest : w ∈ rest := by
              cases hw with
              | head => exact absurd hz hwz
              | tail _ hm => exact hm
            have hrest : rest ≠ [] := List.ne_nil_of_mem hwrest
            have hufacts := matchUnparsed_update_facts [("parent", Value.ctx parent)]
              ['z'] rest (parent_nodup parent)
            simp only [hufacts.2.2.1] at h
            rw [show ((c :: rest == rest) = false) from
              beq_eq_false_iff_ne.mpr (List.cons_ne_self c rest)] at h
            simp only [Bool.false_eq_true, if_false, getUnparsed_erase_parent] at h
            simp only [hufacts.2.2.1] at h
            rw [show ((rest == ([] : List Char)) = false) from
              beq_eq_false_iff_ne.mpr hrest] at h
            simp only [Bool.false_eq_true, if_false] at h
            exact ih rest _ parent res hrest ⟨w, hwrest, hwz⟩ h hf
          · -- zero-length success with input remaining: fatal
            rw [if_neg hz] at h
            have hufacts := matchUnparsed_update_facts [("parent", Value.ctx parent)]
              [] (c :: rest) (parent_nodup parent)
            simp only [hufacts.2.2.1] at h
            rw [show ((c :: rest == c :: rest) = true) from beq_self_eq_true _] at h
            simp only [if_true] at h
            exact h.symm

/-- `Repeat(Optional(Literal("z")))` on a non-empty input containing a
character other than `z`/`Z` raises the fatal zero-length error. -/
theorem repeatOptZ_fatal (f : Nat) (s : List Char) (ctx : CtxEntries) (res : PResult)
    (hne : s ≠ []) (hex : ∃ c ∈ s, lower c ≠ 'z')
    (h : parse f (.Repeat (.Optional (mkLiteral ["z".toList] none) []) none 0 none) s ctx = res)
    (hf : res ≠ .outOfFuel) : res = .fatal .zeroRepeat := by
  cases f with
  | zero => exact absurd h.symm hf
  | succ n =>
      have hd : mkDelimRule none (.Optional (mkLiteral ["z".toList] none) [])
          = .Optional (mkLiteral ["z".toList] none) [] := rfl
      rw [parse_repeat_eq, hd] at h
      cases hl : repGo (parse n) (.Optional (mkLiteral ["z".toList] none) [])
          (.Optional (mkLiteral ["z".toList] none) []) none ctx n s [] with
      | ldone ms rem =>
          have := optZ_loop n n s [] ctx _ hne hex hl (by intro hq; cases hq)
          cases this
      | lfatal e =>
          have := optZ_loop n n s [] ctx _ hne hex hl (by intro hq; cases hq)
          cases this
          rw [hl] at h
          exact h.symm
      | lfuel =>
          rw [hl] at h
          exact absurd h.symm hf

/-! ### Chars bounds versus generic repetition of single-character matches -/

theorem takeWhile_const_true (s : List Char) : s.takeWhile (fun _ => true) = s := by
  induction s with
  | nil => rfl
  | cons c rest ih => simp [List.takeWhile_cons, ih]

/-- The `enumerate` scan of `Chars.parse` computes the length of the longest
predicate-satisfying prefix, uniformly over all four `chars`/`exclude`
configurations. -/
theorem charsRunLen_eq (S E : Option (List Char)) (s : List Char) :
    charsRunLen S E s = (s.takeWhile (charsPred S E)).length := by
  cases S <;> cases E
  · rw [show charsRunLen none none s = s.length from rfl,
      show charsPred none none = (fun _ => true) from rfl, takeWhile_const_true]
  · rfl
  · rfl
  · rfl

/-- Evaluation of a single-character `Chars` rule (`min = max = 1`). -/
theorem charsSingle_eval (k : Nat) (S E : Option (List Char)) (s : List Char)
    (ictx : CtxEntries) :
    parse (k + 1) (.Chars S E 1 (some 1)) s ictx =
      match s with
      | [] => .noMatch s ictx
      | c :: rest =>
          if charsPred S E c then
            .ok (ctxUpdate ictx [("_match", Value.str [c]), ("_unparsed", Value.str rest)])
          else .noMatch s ictx := by
  cases s with
  | nil =>
      simp only [parse, charsRunLen_eq, List.takeWhile_nil, List.length_nil]
      simp
  | cons c rest =>
      by_cases hp : charsPred S E c
      · simp only [parse, charsRunLen_eq, List.takeWhile_cons, hp, if_true, List.length_cons]
        have hmin : min ((List.takeWhile (charsPred S E) rest).length + 1) 1 = 1 := by omega
        simp [hmin, List.take, List.drop]
      · simp only [parse, charsRunLen_eq, List.takeWhile_cons, hp]
        simp [hp]

/-- The `Repeat` loop over a single-character `Chars` rule consumes exactly
the predicate-satisfying run, clamped by the remaining iteration budget. -/
theorem charsRep_loop (pf : Nat) (S E : Option (List Char)) (mxOpt : Option Nat)
    (parent : CtxEntries) :
    ∀ lf (s : List Char) (acc : List CtxEntries) (res : LoopRes),
      repGo (parse (pf + 1)) (.Chars S E 1 (some 1)) (.Chars S E 1 (some 1))
        mxOpt parent lf s acc = res →
      res ≠ .lfuel →
      ∃ ms', res = .ldone (acc ++ ms') (s.drop ms'.length) ∧
        ms'.length = (match mxOpt with
          | none => (s.takeWhile (charsPred S E)).length
          | some M => min (s.takeWhile (charsPred S E)).length (M - acc.length)) := by
  intro lf
  induction lf with
  | zero =>
      intro s acc res h hf
      rw [repGo] at h
      exact absurd h.symm hf
  | succ m ih =>
      intro s acc res h hf
      rw [repGo] at h
      by_cases hmax : maxReached acc.length mxOpt = true
      · rw [if_pos hmax] at h
        cases mxOpt with
        | none => simp [maxReached] at hmax
        | some M =>
            refine ⟨[], ?_, ?_⟩
            · simpa using h.symm
            · simp [maxReached] at hmax
              simp only [List.length_nil]
              omega
      · rw [if_neg hmax, ite_self, charsSingle_eval pf] at h
        cases s with
        | nil =>
            simp only [] at h
            refine ⟨[], by simpa using h.symm, ?_⟩
            cases mxOpt <;> simp
        | cons c rest =>
            simp only [] at h
            by_cases hp : charsPred S E c
            · rw [if_pos hp] at h
              have hufacts := matchUnparsed_update_facts [("parent", Value.ctx parent)]
                [c] rest (parent_nodup parent)
              simp only [hufacts.2.2.1] at h
              rw [show ((c :: rest == rest) = false) from
                beq_eq_false_iff_ne.mpr (List.cons_ne_self c rest)] at h
              simp only [Bool.false_eq_true, if_false, getUnparsed_erase_parent] at h
              simp only [hufacts.2.2.1] at h
              by_cases hrest : rest = []
              · subst hrest
                rw [show (([] : List Char) == []) = true from rfl] at h
                simp only [if_true] at h
                refine ⟨[eraseKey (ctxUpdate [("parent", Value.ctx parent)]
                  [("_match", Value.str [c]), ("_unparsed", Value.str [])]) "parent"], ?_, ?_⟩
                · simpa using h.symm
                · simp only [List.length_cons, List.length_nil, List.takeWhile_cons, hp,
                    if_true, List.takeWhile_nil]
                  cases mxOpt with
                  | none => rfl
                  | some M =>
                      simp [maxReached] at hmax
                      simp only [List.length_cons, List.length_nil]
                      omega
              · rw [show ((rest == ([] : List Char)) = false) from
                  beq_eq_false_iff_ne.mpr hrest] at h
                simp only [Bool.false_eq_true, if_false] at h
                obtain ⟨ms'', hres, hlen⟩ := ih rest _ res h hf
                refine ⟨eraseKey (ctxUpdate [("parent", Value.ctx parent)]
                  [("_match", Value.str [c]), ("_unparsed", Value.str rest)]) "parent" :: ms'', ?_, ?_⟩
                · rw [hres]
                  simp [List.append_assoc, List.drop_succ_cons]
                · simp only [List.length_cons, List.takeWhile_cons, hp, if_true]
                  cases mxOpt with
                  | none => simp at hlen ⊢; omega
                  | some M =>
                      simp [maxReached] at hmax
                      simp only [List.length_append, List.length_cons, List.length_nil] at hlen
                      simp only [List.length_cons]
                      omega
            · rw [if_neg hp] at h
              refine ⟨[], by simpa using h.symm, ?_⟩
              simp only [List.takeWhile_cons, hp, Bool.false_eq_true, if_false,
                List.length_nil]
              cases mxOpt <;> simp

/-- A bounds-adjusted `Chars` accepts an input exactly when the generic
`Repeat` of the corresponding single-character `Chars` does. -/
theorem charsRep_equiv (S E : Option (List Char)) (m : Nat) (M : Option Nat)
    (s : List Char) (ctx : CtxEntries) (f₁ f₂ : Nat) (r₁ r₂ : PResult)
    (h1 : parse (f₁ + 1) (.Chars S E m M) s ctx = r₁)
    (h2 : parse (f₂ + 1) (.Repeat (.Chars S E 1 (some 1)) none m M) s ctx = r₂)
    (hfuel : r₂ ≠ .outOfFuel) :
    r₁.isOk = r₂.isOk := by
  cases f₂ with
  | zero =>
      rw [show parse 1 (.Repeat (.Chars S E 1 (some 1)) none m M) s ctx
        = .outOfFuel from rfl] at h2
      exact absurd h2.symm hfuel
  | succ pf =>
      have hd : mkDelimRule none (.Chars S E 1 (some 1)) = .Chars S E 1 (some 1) := rfl
      rw [parse_repeat_eq, hd] at h2
      cases hl : repGo (parse (pf + 1)) (.Chars S E 1 (some 1)) (.Chars S E 1 (some 1))
          M ctx (pf + 1) s [] with
      | lfuel => rw [hl] at h2; exact absurd h2.symm hfuel
      | lfatal e =>
          obtain ⟨ms', hres, _⟩ := charsRep_loop pf S E M ctx (pf + 1) s [] _ hl
            (by intro hq; cases hq)
          cases hres
      | ldone ms rem =>
          obtain ⟨ms', hres, hlen⟩ := charsRep_loop pf S E M ctx (pf + 1) s [] _ hl
            (by intro hq; cases hq)
          rw [hl] at h2
          simp only [] at h2
          simp only [parse, charsRunLen_eq] at h1
          cases hres
          simp only [List.nil_append] at h2
          cases M with
          | none =>
              simp only [] at h1 hlen
              simp only [hlen] at h2
              by_cases hm : (s.takeWhile (charsPred S E)).length < m
              · rw [if_pos hm] at h1 h2
                rw [← h1, ← h2]
              · rw [if_neg hm] at h1 h2
                rw [← h1, ← h2]
                rfl
          | some MM =>
              simp only [] at h1 hlen
              simp only [List.length_nil, Nat.sub_zero] at hlen
              simp only [hlen] at h2
              by_cases hm : min (s.takeWhile (charsPred S E)).length MM < m
              · rw [if_pos hm] at h1 h2
                rw [← h1, ← h2]
              · rw [if_neg hm] at h1 h2
                rw [← h1, ← h2]
                rfl

/-! ### Sequence: threading, concatenation, and length bookkeeping -/

theorem match_ne_capturable : ("_match" : String) ≠ "_capturable" := by decide

/-- `Sequence.parse` only re-raises exceptions: an `sfail` never carries a
success. -/
theorem seqGo_sfail_not_ok (p : Parser) :
    ∀ (rs : List Rule) (ctx : CtxEntries) (ms : List (List Char)) (r : PResult),
      seqGo p rs ctx ms = .sfail r → ∀ cc, r ≠ .ok cc := by
  intro rs
  induction rs with
  | nil => intro ctx ms r h cc; cases h
  | cons r' rest ih =>
      intro ctx ms r h cc
      rw [seqGo] at h
      cases hp : p r' (getUnparsed ctx) ctx with
      | ok c => rw [hp] at h; exact ih _ _ _ h cc
      | noMatch u c => rw [hp] at h; cases h; intro hq; cases hq
      | fatal e => rw [hp] at h; cases h; intro hq; cases hq
      | outOfFuel => rw [hp] at h; cases h; intro hq; cases hq

/-- The threading invariant of the `Sequence` child loop: when every child is
well behaved, the remainder is threaded forward and the accumulated matched
texts account exactly for the consumed input. -/
theorem seqGo_spec (n : Nat) :
    ∀ (rs : List Rule) (ctx : CtxEntries) (ms : List (List Char))
      (c₀ : CtxEntries) (msOut : List (List Char)),
      NoDupKeys ctx →
      (∀ r ∈ rs, WellBehaved r) →
      assocLookup ctx "_unparsed" = some (.str (getUnparsed ctx)) →
      seqGo (parse n) rs ctx ms = .sok c₀ msOut →
      NoDupKeys c₀ ∧
      assocLookup c₀ "_unparsed" = some (.str (getUnparsed c₀)) ∧
      msOut.flatten.length + (getUnparsed c₀).length
        = ms.flatten.length + (getUnparsed ctx).length := by
  intro rs
  induction rs with
  | nil =>
      intro ctx ms c₀ msOut hnd _ hu h
      cases h
      exact ⟨hnd, hu, rfl⟩
  | cons r rest ih =>
      intro ctx ms c₀ msOut hnd hwb hu h
      rw [seqGo] at h
      cases hp : parse n r (getUnparsed ctx) ctx with
      | noMatch u c => rw [hp] at h; cases h
      | fatal e => rw [hp] at h; cases h
      | outOfFuel => rw [hp] at h; cases h
      | ok c =>
          simp only [hp] at h
          obtain ⟨hndc, hm, hus, hlen⟩ :=
            hwb r (List.mem_cons_self r rest) n (getUnparsed ctx) ctx c hp hnd
          have hndm : NoDupKeys (eraseKey (ctxUpdate ctx c) "_capturable") :=
            noDupKeys_erase (noDupKeys_ctxUpdate hnd c) _
          have hum : assocLookup (eraseKey (ctxUpdate ctx c) "_capturable") "_unparsed"
              = some (.str (getUnparsed c)) := by
            rw [assocLookup_erase, if_neg unparsed_ne_capturable]
            exact assocLookup_ctxUpdate_mem hndc hus ctx
          have hgu : getUnparsed (eraseKey (ctxUpdate ctx c) "_capturable")
              = getUnparsed c := by
            unfold getUnparsed
            rw [hum]
            rfl
          have hmm : assocLookup (eraseKey (ctxUpdate ctx c) "_capturable") "_match"
              = some (.str (getMatch c)) := by
            rw [assocLookup_erase, if_neg match_ne_capturable]
            exact assocLookup_ctxUpdate_mem hndc hm ctx
          have hgm : getMatch (eraseKey (ctxUpdate ctx c) "_capturable")
              = getMatch c := by
            unfold getMatch
            rw [hmm]
            rfl
          obtain ⟨h1, h2, h3⟩ := ih _ _ _ _ hndm
            (fun rr hr => hwb rr (List.mem_cons_of_mem r hr))
            (by rw [hum, hgu]) h
          refine ⟨h1, h2, ?_⟩
          rw [h3, hgu, hgm]
          simp only [List.flatten_append, List.flatten_cons, List.flatten_nil,
            List.length_append, List.append_nil]
          omega

/-! ### Claim theorems -/

/-- C1: `Alternatives` tries its branches in declared order, each against an
independent copy of the incoming context; the result is the context produced
by the first succeeding branch, and keys bound by earlier failed branches do
not leak into it — in particular, with `Alternatives(A, B)` where `A`
captures `"x"` and then fails inside an enclosing `Sequence` while `B`
succeeds without binding `"x"`, the final context has no key `"x"`. -/
theorem spec_C1 :
    (∀ (n : Nat) (pre : List Rule) (r : Rule) (rest : List Rule) (s : List Char)
        (ctx : CtxEntries) (c' : CtxEntries),
      (∀ rp ∈ pre, ∃ u cc, parse n rp s ctx = .noMatch u cc) →
      parse n r s ctx = .ok c' →
      (getUnparsed c' ≠ s ∨ rest = []) →
      parse (n + 1) (.Alternatives (pre ++ r :: rest)) s ctx = .ok c') ∧
    ((parse 30 (.Sequence [.Alternatives [
        .Sequence [.Capture (mkLiteral ["a".toList] none) "x" none false,
          mkLiteral ["q".toList] none],
        mkLiteral ["ab".toList] none],
      mkLiteral ["!".toList] none]) "ab!".toList []).isOk = true ∧
     assocLookup ((parse 30 (.Sequence [.Alternatives [
        .Sequence [.Capture (mkLiteral ["a".toList] none) "x" none false,
          mkLiteral ["q".toList] none],
        mkLiteral ["ab".toList] none],
      mkLiteral ["!".toList] none]) "ab!".toList []).okCtx) "x" = none) :=
  ⟨altGo_first_success, rfl, rfl⟩

/-- C1 witness: `Alternatives(Literal("q"), Literal("ab"))` on `"ab"` — the
first branch fails with `NoMatchError`, the second succeeds and its context
is the result. -/
theorem spec_C1_witness :
    parse 11 (.Alternatives [mkLiteral ["q".toList] none, mkLiteral ["ab".toList] none])
        "ab".toList []
      = .ok (ctxUpdate [] [("_match", Value.str "ab".toList),
          ("_unparsed", Value.str [])]) :=
  spec_C1.1 10 [mkLiteral ["q".toList] none] (mkLiteral ["ab".toList] none) []
    "ab".toList [] _
    (by
      intro rp hm
      simp only [List.mem_singleton] at hm
      subst hm
      exact ⟨"ab".toList, [], rfl⟩)
    rfl (Or.inr rfl)

/-- C2 counterexample: the claim says `Repeat(Optional(Literal("z")))` raises
the fatal error on *any* non-empty input, but on input `"z"` the first
iteration consumes the whole input and the parse succeeds. -/
theorem spec_C2_cx :
    (parse 20 (.Repeat (.Optional (mkLiteral ["z".toList] none) []) none 0 none)
      "z".toList []).isOk = true := rfl

/-- C2 (amended): a zero-length successful `Repeat` iteration and a
zero-length non-final `Alternatives` success raise fatal errors distinct
from `NoMatchError` that `Alternatives`, `Optional` and `Repeat` never
catch; `Repeat(Optional(Literal("z")))` raises the fatal error on any
non-empty input containing a character other than `z`/`Z` (on all-`z`
inputs it instead succeeds, consuming everything). -/
theorem spec_C2 :
    (∀ (n : Nat) (r : Rule) (dflt s : List Char) (ctx : CtxEntries) (e : FatalErr),
        parse n r s ctx = .fatal e →
        parse (n + 1) (.Optional r dflt) s ctx = .fatal e) ∧
    (∀ (n : Nat) (pre : List Rule) (r : Rule) (rest : List Rule) (s : List Char)
        (ctx : CtxEntries) (e : FatalErr),
        (∀ rp ∈ pre, ∃ u cc, parse n rp s ctx = .noMatch u cc) →
        parse n r s ctx = .fatal e →
        parse (n + 1) (.Alternatives (pre ++ r :: rest)) s ctx = .fatal e) ∧
    (∀ (n : Nat) (r : Rule) (d : Option Rule) (mn : Nat) (mx : Option Nat)
        (s : List Char) (ctx : CtxEntries) (e : FatalErr),
        maxReached 0 mx = false →
        parse (n + 1) r s [("parent", Value.ctx ctx)] = .fatal e →
        parse (n + 2) (.Repeat r d mn mx) s ctx = .fatal e) ∧
    (∀ (n : Nat) (r : Rule) (d : Option Rule) (mn : Nat) (mx : Option Nat)
        (s : List Char) (ctx : CtxEntries) (c : CtxEntries),
        maxReached 0 mx = false →
        parse (n + 1) r s [("parent", Value.ctx ctx)] = .ok c →
        getUnparsed c = s →
        parse (n + 2) (.Repeat r d mn mx) s ctx = .fatal .zeroRepeat) ∧
    (∀ (n : Nat) (r : Rule) (rest : List Rule) (s : List Char) (ctx : CtxEntries)
        (c : CtxEntries),
        rest ≠ [] →
        parse n r s ctx = .ok c →
        getUnparsed c = s →
        parse (n + 1) (.Alternatives (r :: rest)) s ctx = .fatal .zeroAlt) ∧
    (∀ (f : Nat) (s : List Char) (ctx : CtxEntries) (res : PResult),
        s ≠ [] → (∃ c ∈ s, lower c ≠ 'z') →
        parse f (.Repeat (.Optional (mkLiteral ["z".toList] none) []) none 0 none)
          s ctx = res →
        res ≠ .outOfFuel → res = .fatal .zeroRepeat) :=
  ⟨optional_fatal, altGo_fatal, repeat_fatal, repeat_zero_fatal, altGo_zero_fatal,
    repeatOptZ_fatal⟩

/-- C2 witness: `Repeat(Optional(Literal("z")))` on `"az"` hits the
zero-length guard and aborts with the fatal error. -/
theorem spec_C2_witness :
    parse 20 (.Repeat (.Optional (mkLiteral ["z".toList] none) []) none 0 none)
      "az".toList [] = .fatal .zeroRepeat :=
  spec_C2.2.2.2.2.2 20 "az".toList [] _
    (by decide)
    ⟨'a', by decide, by decide⟩
    rfl
    (by
      intro hq
      have hx : PResult.fatal FatalErr.zeroRepeat = PResult.outOfFuel :=
        (show parse 20 (.Repeat (.Optional (mkLiteral ["z".toList] none) []) none 0 none)
          "az".toList [] = .fatal .zeroRepeat from rfl).symm.trans hq
      cases hx)

/-- C3 counterexample: a `Sequence` containing `Ignore(Literal("a"))`
(`Transform` to the empty string) succeeds on `"a"` with
`len(matched) + len(unparsed) = 0 ≠ 1 = len(s)`. -/
theorem spec_C3_cx :
    (parse 10 (.Sequence [.Transform (mkLiteral ["a".toList] none) (fun _ => [])])
      "a".toList []).isOk = true ∧
    (getMatch ((parse 10 (.Sequence [.Transform (mkLiteral ["a".toList] none)
        (fun _ => [])]) "a".toList []).okCtx)).length
      + (getUnparsed ((parse 10 (.Sequence [.Transform (mkLiteral ["a".toList] none)
        (fun _ => [])]) "a".toList []).okCtx)).length
      ≠ ("a".toList).length :=
  ⟨rfl, by decide⟩

/-- C3 (amended): a successful `Sequence` runs its children in declared order
threading the remainder, and its matched text is the concatenation of the
per-child matched texts; provided every child is well behaved (its matched
text is exactly what it consumed — true of `Literal`/`Chars` but not of
`Transform`/`Ignore`), the matched length plus the unparsed length equals
the input length. -/
theorem spec_C3 (n : Nat) (rs : List Rule) (s : List Char) (ctx : CtxEntries)
    (c : CtxEntries)
    (h : parse (n + 1) (.Sequence rs) s ctx = .ok c)
    (hnd : NoDupKeys ctx)
    (hwb : ∀ r ∈ rs, WellBehaved r) :
    (∃ c₀ msOut,
      seqGo (parse n) rs (insertOrUpdate ctx "_unparsed" (.str s)) [] = .sok c₀ msOut
        ∧ getMatch c = msOut.flatten) ∧
    (getMatch c).length + (getUnparsed c).length = s.length := by
  rw [parse_sequence_eq] at h
  cases hsg : seqGo (parse n) rs (insertOrUpdate ctx "_unparsed" (.str s)) [] with
  | sfail r =>
      rw [hsg] at h
      simp only [] at h
      exact absurd h (seqGo_sfail_not_ok (parse n) rs _ [] r hsg c)
  | sok c₀ msOut =>
      rw [hsg] at h
      simp only [] at h
      injection h with hc
      have hgm : getMatch c = msOut.flatten := by
        rw [← hc]
        unfold getMatch
        rw [assocLookup_iou, if_pos rfl]
        rfl
      have hgu : getUnparsed c = getUnparsed c₀ := by
        rw [← hc]
        unfold getUnparsed
        rw [assocLookup_iou, if_neg (fun hq => match_ne_unparsed hq.symm)]
      have hnd₁ : NoDupKeys (insertOrUpdate ctx "_unparsed" (.str s)) :=
        noDupKeys_iou hnd _ _
      have hu₁ : assocLookup (insertOrUpdate ctx "_unparsed" (.str s)) "_unparsed"
          = some (.str s) := by
        rw [assocLookup_iou, if_pos rfl]
      have hgu₁ : getUnparsed (insertOrUpdate ctx "_unparsed" (.str s)) = s := by
        unfold getUnparsed
        rw [hu₁]
        rfl
      obtain ⟨h1, h2, h3⟩ := seqGo_spec n rs _ [] c₀ msOut hnd₁ hwb
        (by rw [hu₁, hgu₁]) hsg
      rw [hgu₁] at h3
      simp only [List.flatten_nil, List.length_nil, Nat.zero_add] at h3
      exact ⟨⟨c₀, msOut, rfl, hgm⟩, by rw [hgm, hgu]; exact h3⟩

/-- C3 witness: `Sequence(Literal("a"), Literal("b"))` on `"abc"` — both
children are well behaved and the length invariant holds. -/
theorem spec_C3_witness :
    (getMatch ((parse 11 (.Sequence [mkLiteral ["a".toList] none,
        mkLiteral ["b".toList] none]) "abc".toList []).okCtx)).length
      + (getUnparsed ((parse 11 (.Sequence [mkLiteral ["a".toList] none,
        mkLiteral ["b".toList] none]) "abc".toList []).okCtx)).length
      = ("abc".toList).length :=
  (spec_C3 10 [mkLiteral ["a".toList] none, mkLiteral ["b".toList] none]
    "abc".toList []
    ((parse 11 (.Sequence [mkLiteral ["a".toList] none, mkLiteral ["b".toList] none])
      "abc".toList []).okCtx)
    rfl
    (by simp [NoDupKeys])
    (by
      intro r hm
      simp only [List.mem_cons, List.mem_singleton, List.not_mem_nil, or_false] at hm
      rcases hm with h | h <;> subst h <;> exact literal_wellBehaved _ _)).2

/-- C4: code bug — `Optional.__init__` stores the configured default but
`Optional.parse` hard-codes `_match=''` on fallback, so
`Optional(Literal("no"), default="D")` on `"yes"` yields matched text `""`
(not `"D"`), consuming nothing. -/
theorem spec_C4 :
    parse 10 (.Optional (mkLiteral ["no".toList] none) "D".toList) "yes".toList []
      = .ok [("_match", Value.str []), ("_unparsed", Value.str "yes".toList)] := rfl

/-- C5: `Repeat` stops iterating once `max` iterations have succeeded, fails
with an ordinary `NoMatchError` exactly when fewer than `min` iterations
succeeded; `Repeat(Chars("0123456789",1,1), min=2, max=4)` on `"123456"`
matches `"1234"` leaving `"56"`, and with `min=3` on `"12"` fails with
`NoMatch`. -/
theorem spec_C5 :
    (∀ (p : Parser) (r drule : Rule) (M : Nat) (parent : CtxEntries)
        (f : Nat) (rem : List Char) (acc ms : List CtxEntries) (rem' : List Char),
        repGo p r drule (some M) parent f rem acc = .ldone ms rem' →
        acc.length ≤ M → ms.length ≤ M) ∧
    (∀ (n : Nat) (r : Rule) (d : Option Rule) (mn : Nat) (mx : Option Nat)
        (s : List Char) (ctx : CtxEntries) (ms : List CtxEntries) (rem : List Char),
        repGo (parse n) r (mkDelimRule d r) mx ctx n s [] = .ldone ms rem →
        ((parse (n + 1) (.Repeat r d mn mx) s ctx = .noMatch s ctx) ↔ ms.length < mn)) ∧
    ((parse 40 (.Repeat (.Chars (some "0123456789".toList) none 1 (some 1)) none 2 (some 4))
        "123456".toList []).isOk = true ∧
      getMatch ((parse 40 (.Repeat (.Chars (some "0123456789".toList) none 1 (some 1))
        none 2 (some 4)) "123456".toList []).okCtx) = "1234".toList ∧
      getUnparsed ((parse 40 (.Repeat (.Chars (some "0123456789".toList) none 1 (some 1))
        none 2 (some 4)) "123456".toList []).okCtx) = "56".toList) ∧
    (parse 40 (.Repeat (.Chars (some "0123456789".toList) none 1 (some 1)) none 3 (some 4))
        "12".toList [] = .noMatch "12".toList []) :=
  ⟨repGo_ldone_le, repeat_noMatch_iff, ⟨rfl, rfl, rfl⟩, rfl⟩

/-- C5 witness: the digit loop on `"123456"` with `max=4` keeps at most 4
iterations, and with `min=2` the overall `Repeat` does not fail. -/
theorem spec_C5_witness :
    ∃ ms rem,
      repGo (parse 40) (.Chars (some "0123456789".toList) none 1 (some 1))
        (.Chars (some "0123456789".toList) none 1 (some 1)) (some 4) [] 40
        "123456".toList [] = .ldone ms rem ∧
      ms.length ≤ 4 ∧
      ((parse 41 (.Repeat (.Chars (some "0123456789".toList) none 1 (some 1)) none 2 (some 4))
          "123456".toList [] = .noMatch "123456".toList []) ↔ ms.length < 2) := by
  refine ⟨_, _, rfl, ?_, ?_⟩
  · exact spec_C5.1 (parse 40) (.Chars (some "0123456789".toList) none 1 (some 1))
      (.Chars (some "0123456789".toList) none 1 (some 1)) 4 [] 40
      "123456".toList [] _ _ rfl (by simp)
  · exact spec_C5.2.1 40 (.Chars (some "0123456789".toList) none 1 (some 1)) none
      2 (some 4) "123456".toList [] _ _ rfl

/-- C6: code bug — `Rule.__call__` accepts a `partial` flag (documented as
"accept a partial match at start of s") but never reads it: it wraps the
rule in `FullMatch` unconditionally, so `FullMatch(Literal("ab"))` on
`"abc"` fails with unparsed `"c"` for `partial=False` *and* for
`partial=True` (the claim says the latter succeeds reporting leftover
`"c"`). -/
theorem spec_C6 :
    ruleCall 10 (mkLiteral ["ab".toList] none) "abc".toList false
        = .errNoMatch "c".toList ∧
    ruleCall 10 (mkLiteral ["ab".toList] none) "abc".toList true
        = .errNoMatch "c".toList :=
  ⟨rfl, rfl⟩

/-- C7: code bug — `Mapping.parse` reads `match._capturable` where no name
`match` is in scope (the intended name is `context`), so as soon as the
underlying `Repeat` succeeds (here with iterations binding `"key"` and
`"value"` on `"a=1"`, as the second conjunct shows for the plain `Repeat`),
the table-building expression raises `NameError` instead of producing the
insert-or-update ordered map. -/
theorem spec_C7 :
    parse 40 (.Mapping (.Sequence
        [.Capture (mkChars "abc".toList) "key" none false,
         mkLiteral ["=".toList] none,
         .Capture (mkChars "0123456789".toList) "value" none false])
      none 0 none "key" "value") "a=1".toList [] = .fatal .nameErrorMatch ∧
    (parse 40 (.Repeat (.Sequence
        [.Capture (mkChars "abc".toList) "key" none false,
         mkLiteral ["=".toList] none,
         .Capture (mkChars "0123456789".toList) "value" none false])
      none 0 none) "a=1".toList []).isOk = true :=
  ⟨rfl, rfl⟩

/-- A matcher standing for a compiled regular expression with a named group
whose name carries the reserved underscore prefix (`(?P<_x>a)`): anchored,
it matches the single character `a` and binds group `_x`. -/
def uscoreMatcher : List Char → Option (List Char × List (String × List Char)) :=
  fun s => if s.take 1 == ['a'] then some (['a'], [("_x", ['a'])]) else none

/-- A matcher standing for a compiled regular expression with the ordinary
named group `g`: anchored, it matches `ab` and binds `g`. -/
def plainMatcher : List Char → Option (List Char × List (String × List Char)) :=
  fun s => if s.take 2 == "ab".toList then some ("ab".toList, [("g", "ab".toList)]) else none

/-- C8 counterexample: constructing a `RegExp` whose pattern has a named
group starting with the reserved underscore prefix is *not* rejected at
construction time — `RegExp.__init__` performs no group-name validation and
succeeds; the reserved-name assertion only fires later, inside
`RegExp.parse`, on a successful match. -/
theorem spec_C8_cx :
    regExpInit uscoreMatcher = Except.ok (.RegExp uscoreMatcher) ∧
    parse 5 (.RegExp uscoreMatcher) "a".toList [] = .fatal .assertUnderscore :=
  ⟨rfl, rfl⟩

/-- C8 (amended): a `RegExp` rule succeeds exactly when its pattern matches
anchored at position 0, consuming the full match length and binding every
named group as a public capture; a named group with the reserved underscore
prefix is not rejected at construction but trips an assertion in
`RegExp.parse` whenever the pattern matches. -/
theorem spec_C8 (matcher : List Char → Option (List Char × List (String × List Char)))
    (s : List Char) (ctx : CtxEntries) (f : Nat) :
    (matcher s = none → parse (f + 1) (.RegExp matcher) s ctx = .noMatch s ctx) ∧
    (∀ m gd, matcher s = some (m, gd) →
      gd.any (fun kv => reservedKey kv.1) = true →
      parse (f + 1) (.RegExp matcher) s ctx = .fatal .assertUnderscore) ∧
    (∀ m gd, matcher s = some (m, gd) →
      gd.any (fun kv => reservedKey kv.1) = false →
      parse (f + 1) (.RegExp matcher) s ctx =
        .ok (ctxUpdate ctx (("_match", Value.str m) ::
          ("_unparsed", Value.str (s.drop m.length)) ::
          gd.map (fun kv => (kv.1, Value.str kv.2))))) := by
  refine ⟨fun h => ?_, fun m gd h hr => ?_, fun m gd h hr => ?_⟩
  · simp [parse, h]
  · simp [parse, h, hr]
  · simp [parse, h, hr]

/-- C8 witness: a well-named anchored match on `"abc"` consumes the match
and binds the group `g` as a public capture. -/
theorem spec_C8_witness :
    parse 6 (.RegExp plainMatcher) "abc".toList [] =
      .ok (ctxUpdate [] (("_match", Value.str "ab".toList) ::
        ("_unparsed", Value.str ("abc".toList.drop ("ab".toList).length)) ::
        [(("g" : String), "ab".toList)].map (fun kv => (kv.1, Value.str kv.2)))) :=
  (spec_C8 plainMatcher "abc".toList [] 5).2.2 "ab".toList [("g", "ab".toList)] rfl rfl

/-- C9: `Chars.__getitem__` with an integer or a step-free non-string slice
returns a new `Chars` with the same character sets and the adjusted bounds
(not a `Repeat` wrapper), and the bounds-adjusted `Chars` accepts exactly
the inputs accepted by the generic `Repeat` of the corresponding
single-character `Chars`. -/
theorem spec_C9 :
    (∀ (chars exclude : Option (List Char)) (mn : Nat) (mx : Option Nat) (k : Nat),
        charsGetitem chars exclude mn mx (.intI k) = .Chars chars exclude k (some k)) ∧
    (∀ (chars exclude : Option (List Char)) (mn : Nat) (mx : Option Nat)
        (st stop : Option Nat),
        charsGetitem chars exclude mn mx (.sliceI st stop none)
          = .Chars chars exclude (st.getD 0) stop) ∧
    (∀ (S E : Option (List Char)) (m : Nat) (M : Option Nat) (s : List Char)
        (ctx : CtxEntries) (f₁ f₂ : Nat) (r₁ r₂ : PResult),
        parse (f₁ + 1) (.Chars S E m M) s ctx = r₁ →
        parse (f₂ + 1) (.Repeat (.Chars S E 1 (some 1)) none m M) s ctx = r₂ →
        r₂ ≠ .outOfFuel → r₁.isOk = r₂.isOk) :=
  ⟨fun _ _ _ _ _ => rfl, fun _ _ _ _ _ _ => rfl, charsRep_equiv⟩

/-- C9 witness: `Chars("ab", min=2, max=None)` and
`Repeat(Chars("ab",1,1), min=2)` agree on acceptance of `"aab"`. -/
theorem spec_C9_witness :
    (parse 5 (.Chars (some "ab".toList) none 2 none) "aab".toList []).isOk
      = (parse 10 (.Repeat (.Chars (some "ab".toList) none 1 (some 1)) none 2 none)
          "aab".toList []).isOk :=
  spec_C9.2.2 (some "ab".toList) none 2 none "aab".toList [] 4 9 _ _ rfl rfl
    (by
      intro hq
      have hx : PResult.ok ((parse 10 (.Repeat (.Chars (some "ab".toList) none 1 (some 1))
            none 2 none) "aab".toList []).okCtx) = PResult.outOfFuel :=
        (show parse 10 (.Repeat (.Chars (some "ab".toList) none 1 (some 1)) none 2 none)
          "aab".toList []
          = .ok ((parse 10 (.Repeat (.Chars (some "ab".toList) none 1 (some 1)) none 2 none)
            "aab".toList []).okCtx) from rfl).symm.trans hq
      cases hx)

/-- C10: a `Chars` rule built from a character set alone defaults to
`min = max = 1`: it succeeds exactly when the first input character is in
the set, consuming exactly one character, and fails with `NoMatchError`
otherwise (including on empty input). -/
theorem spec_C10 (f : Nat) (cs s : List Char) (ctx : CtxEntries) :
    parse (f + 1) (mkChars cs) s ctx =
      match s with
      | [] => .noMatch s ctx
      | c :: rest =>
          if cs.contains c then
            .ok (ctxUpdate ctx [("_match", Value.str [c]), ("_unparsed", Value.str rest)])
          else .noMatch s ctx := by
  cases s with
  | nil => rfl
  | cons c rest =>
      by_cases h : cs.contains c
      · simp only [parse, mkChars, charsRunLen, charsPred, List.takeWhile_cons, h, if_true]
        have hmin : min ((List.takeWhile (fun c => cs.contains c) rest).length + 1) 1 = 1 := by
          omega
        simp [hmin, List.take, List.drop]
      · simp only [parse, mkChars, charsRunLen, charsPred, List.takeWhile_cons, h]
        simp [h]

end RfcParse
